import Mathlib

/-!
Verification of the adaptive arithmetic coder of the campross repository
(`src/arith.rs` together with the bit-I/O layer `src/bitfile.rs`).

The Rust code is shallowly embedded: `u64` quantities are modelled as `ℕ`
(every intermediate value that occurs on the paths reasoned about below is
far below `2 ^ 64`, so natural-number arithmetic agrees with the machine
arithmetic; the one place the code relies on 32-bit wrap-around, the
`& MAX_CODE` masking in the encoder renormalization, is modelled by an
explicit `% 2 ^ 32`).  Fallible I/O is modelled by an explicit result type,
loops without a structural measure take fuel, and the generic `Write` sink
of the encoder is modelled by an oracle saying which byte writes and which
final flush succeed.
-/

namespace Campross

/-! ## Constants of src/arith.rs -/

/-- EOF sentinel symbol (`const EOF: Symbol = 256`). -/
def EOFSYM : ℕ := 256

/-- Number of symbols (`const SYM_CNT: usize = 257`). -/
def SYM_CNT : ℕ := 257

/-- Maximum admissible total frequency (`const MAX_FREQ: u64 = 0x3fff`). -/
def MAX_FREQ : ℕ := 0x3fff

/-- One half of the code range (`const ONE_HALF: u64 = 0x8000_0000`). -/
def ONE_HALF : ℕ := 0x80000000

/-- One fourth of the code range (`const ONE_FOURTH: u64 = 0x4000_0000`). -/
def ONE_FOURTH : ℕ := 0x40000000

/-- Three fourths of the code range (`const THREE_FOURTHS: u64 = 0xC000_0000`). -/
def THREE_FOURTHS : ℕ := 0xC0000000

/-- Largest code value (`const MAX_CODE: u64 = 0xffff_ffff`). -/
def MAX_CODE : ℕ := 0xffffffff

/-! ## The adaptive frequency model (`struct State`) -/

/-- Probability range of a symbol (`struct Prob`). -/
structure Prob where
  low : ℕ
  high : ℕ
  total : ℕ
  deriving DecidableEq, Repr

/-- The model state.  The Rust code stores `freqs: [u64; SYM_CNT + 1]`, an
array of 258 cumulative frequencies; we model it as a function on ℕ whose
values above index 257 are never consulted. -/
structure State where
  freqs : ℕ → ℕ

/-- Fresh model (`State::new`): `freqs[i] = i`, i.e. one occurrence per
symbol, including EOF. -/
def State.new : State := ⟨fun i => i⟩

/-- Grand total of occurrence counts (`State::get_count`). -/
def State.getCount (s : State) : ℕ := s.freqs SYM_CNT

/-- Step 1 of `State::downscale`: the loop
`for i in 1..SYM_CNT { freqs[SYM_CNT - i] -= freqs[SYM_CNT - i - 1] }`
runs downwards over indices `256, …, 1`, so each entry is replaced by the
difference with its still unmodified left neighbour, after which
`freqs[SYM_CNT] = 1` resets the top entry. -/
def downStep1 (f : ℕ → ℕ) : ℕ → ℕ := fun i =>
  if i = SYM_CNT then 1
  else if 1 ≤ i ∧ i < SYM_CNT then f i - f (i - 1)
  else f i

/-- Step 2 of `State::downscale`: `for i in 1..SYM_CNT { if freqs[i] > 1 { freqs[i] /= 2 } }`. -/
def downStep2 (f : ℕ → ℕ) : ℕ → ℕ := fun i =>
  if 1 ≤ i ∧ i < SYM_CNT ∧ 1 < f i then f i / 2 else f i

/-- Running prefix sum, mirroring step 3 of `State::downscale`
(`for i in 1..SYM_CNT + 1 { freqs[i] += freqs[i - 1] }`, an in-place upward
sweep, so entry `i` becomes the sum of the first `i + 1` individual counts). -/
def cumSum (f : ℕ → ℕ) : ℕ → ℕ
  | 0 => f 0
  | n + 1 => cumSum f n + f (n + 1)

/-- Step 3 of `State::downscale` as a whole: entries `0..=SYM_CNT` become
cumulative, entries beyond stay as they are (they do not exist in Rust). -/
def downStep3 (f : ℕ → ℕ) : ℕ → ℕ := fun i =>
  if i ≤ SYM_CNT then cumSum f i else f i

/-- `State::downscale`: halve all frequencies, keeping each at least 1. -/
def State.downscale (s : State) : State :=
  ⟨downStep3 (downStep2 (downStep1 s.freqs))⟩

/-- The increment loop of `State::update`
(`for i in (sym+1)..(SYM_CNT+1) { freqs[i] += 1 }`). -/
def bumped (sym : ℕ) (f : ℕ → ℕ) : ℕ → ℕ := fun i =>
  if sym + 1 ≤ i ∧ i ≤ SYM_CNT then f i + 1 else f i

/-- `State::update`: increment the cumulative frequencies of all indices
above `sym`, then downscale if the total reached `MAX_FREQ`. -/
def State.update (sym : ℕ) (s : State) : State :=
  if MAX_FREQ ≤ bumped sym s.freqs SYM_CNT then State.downscale ⟨bumped sym s.freqs⟩
  else ⟨bumped sym s.freqs⟩

/-- `State::get_prob_and_update`: read the probability range of `sym` from
the current table, then update the model. -/
def State.getProbAndUpdate (sym : ℕ) (s : State) : Prob × State :=
  (⟨s.freqs sym, s.freqs (sym + 1), s.freqs SYM_CNT⟩, State.update sym s)

/-- The scan loop of `State::get_symbol_and_update`
(`for i in 0..SYM_CNT { if scaled_value < freqs[i+1] { … return } }`):
`i` is the next index to try and `k` the number of indices left; `none`
models falling through to `unreachable!()`. -/
def symSearch (s : State) (scaled : ℕ) : ℕ → ℕ → Option (Prob × ℕ)
  | 0, _ => none
  | k + 1, i =>
    if scaled < s.freqs (i + 1) then
      some (⟨s.freqs i, s.freqs (i + 1), s.freqs SYM_CNT⟩, i)
    else
      symSearch s scaled k (i + 1)

/-- `State::get_symbol_and_update`: find the symbol owning `scaled_value`,
return its pre-update probability range and update the model; `none` models
the `unreachable!()` panic. -/
def State.getSymbolAndUpdate (scaled : ℕ) (s : State) : Option ((Prob × ℕ) × State) :=
  match symSearch s scaled SYM_CNT 0 with
  | some (p, sym) => some ((p, sym), State.update sym s)
  | none => none

/-- `State::preload` / `Encoder::preload` / `Decoder::preload`: replay
`get_prob_and_update` once per occurrence of each listed byte. -/
def State.preload (counts : List (ℕ × ℕ)) (s : State) : State :=
  counts.foldl (fun st pr => (List.range pr.2).foldl (fun st2 _ => (State.getProbAndUpdate (pr.1 % 256) st2).2) st) s

end Campross

namespace Campross

/-! ## Result type

compress and decompress return `Result<W, Error>` in Rust and can also
panic (`unwrap`, `unreachable!`) or, in this embedding, run out of fuel. -/

/-- Outcome of an embedded fallible computation: `ok` is `Ok(_)`, `ioErr`
an `Err` from the byte sink, `eofErr` an `Err` caused by the bit reader
exhausting input and padding, `crashed` a Rust panic, and `fuelOut` the
fuel-exhaustion artifact of the embedding. -/
inductive Res (α : Type) where
  | ok (a : α)
  | ioErr
  | eofErr
  | crashed
  | fuelOut
  deriving DecidableEq, Repr

/-- Error-propagating sequencing of `Res` (the effect of Rust `try!`). -/
def Res.bind {α β : Type} : Res α → (α → Res β) → Res β
  | .ok a, f => f a
  | .ioErr, _ => .ioErr
  | .eofErr, _ => .eofErr
  | .crashed, _ => .crashed
  | .fuelOut, _ => .fuelOut

/-! ## Bit output (`struct BitWriter` of src/bitfile.rs)

The encoder is generic over the byte sink `W: Write`; a `SinkSpec` oracle
decides which byte write succeeds (indexed by how many bytes were written
before it) and whether the sink flush succeeds.  The all-true oracle is the
`Vec<u8>` sink of the tests.  `none` models an I/O error. -/

/-- Behaviour of the underlying byte sink. -/
structure SinkSpec where
  writeOk : ℕ → Bool
  flushOk : Bool

/-- The byte sink that never fails (a `Vec<u8>`). -/
def vecSink : SinkSpec := ⟨fun _ => true, true⟩

/-- Bit writer state: partial byte `buf`, current bit `mask`, and the bytes
already written to the sink. -/
structure BitWriter where
  buf : ℕ
  mask : ℕ
  out : List ℕ
  deriving DecidableEq, Repr

/-- `BitWriter::new`: empty buffer, mask at the most significant bit. -/
def BitWriter.new : BitWriter := ⟨0, 0x80, []⟩

/-- `BitWriter::write_bit`: set the bit in the buffer, advance the mask and
emit the full byte to the sink when the mask runs out. -/
def writeBit (sk : SinkSpec) (bit : Bool) (w : BitWriter) : Option BitWriter :=
  let buf := if bit then w.buf ||| w.mask else w.buf
  let mask := w.mask / 2
  if mask = 0 then
    if sk.writeOk w.out.length then some ⟨0, 0x80, w.out ++ [buf]⟩ else none
  else
    some ⟨buf, mask, w.out⟩

/-- `BitWriter::write_bits`: write the `count` least significant bits of
`value`, most significant first. -/
def writeBits (sk : SinkSpec) (value : ℕ) : ℕ → BitWriter → Option BitWriter
  | 0, w => some w
  | count + 1, w =>
    (writeBit sk (value &&& (1 <<< count) ≠ 0) w).bind (writeBits sk value count)

/-- `BitWriter::do_flush`: write the partial byte if any bit of it is used. -/
def doFlush (sk : SinkSpec) (w : BitWriter) : Option BitWriter :=
  if w.mask ≠ 0x80 then
    if sk.writeOk w.out.length then some ⟨w.buf, w.mask, w.out ++ [w.buf]⟩ else none
  else
    some w

/-- `<BitWriter as Write>::flush`: `do_flush` followed by the sink flush. -/
def flushW (sk : SinkSpec) (w : BitWriter) : Option BitWriter :=
  (doFlush sk w).bind (fun w2 => if sk.flushOk then some w2 else none)

/-- Sequentially emit a list of bits (each written via `write_bits(b, 1)`);
the spec-side notion of a bit sequence going out through the writer. -/
def writeBitList (sk : SinkSpec) : List ℕ → BitWriter → Option BitWriter
  | [], w => some w
  | b :: rest, w => (writeBits sk b 1 w).bind (writeBitList sk rest)

/-! ## Bit input (`struct BitReader` of src/bitfile.rs) -/

/-- Bit reader state: remaining input bytes, current partial byte and mask,
and the remaining budget of implicit padding bits served past the end. -/
structure BitReader where
  bytes : List ℕ
  buf : ℕ
  mask : ℕ
  extra : ℕ
  deriving DecidableEq, Repr

/-- `BitReader::read_bit`: refill the buffer byte when the mask is back at
`0x80`; an exhausted source serves `extra` zero bits before failing with
unexpected-end-of-stream (`none`). -/
def readBit (r : BitReader) : Option (Bool × BitReader) :=
  if r.mask = 0x80 then
    match r.bytes with
    | [] =>
      if 0 < r.extra then some (false, ⟨[], r.buf, r.mask, r.extra - 1⟩) else none
    | b :: rest =>
      let mask := r.mask / 2
      some (b &&& r.mask ≠ 0, ⟨rest, b, if mask = 0 then 0x80 else mask, r.extra⟩)
  else
    let mask := r.mask / 2
    some (r.buf &&& r.mask ≠ 0, ⟨r.bytes, r.buf, if mask = 0 then 0x80 else mask, r.extra⟩)

/-- Helper loop of `BitReader::read_bits` (`result <<= 1; result |= bit`). -/
def readBitsAux (acc : ℕ) : ℕ → BitReader → Option (ℕ × BitReader)
  | 0, r => some (acc, r)
  | count + 1, r =>
    match readBit r with
    | none => none
    | some (b, r2) => readBitsAux (2 * acc + if b then 1 else 0) count r2

/-- `BitReader::read_bits`: the next `count` bits, MSB first. -/
def readBits (count : ℕ) (r : BitReader) : Option (ℕ × BitReader) :=
  readBitsAux 0 count r

end Campross

namespace Campross

/-! ## Encoder (`impl Encoder` of src/arith.rs) -/

/-- `Encoder::output_bit_plus_pending`, the trailing while loop: emit
`pending` copies of the complement bit `1 - bit`. -/
def writePending (sk : SinkSpec) (bit : ℕ) : ℕ → BitWriter → Option BitWriter
  | 0, w => some w
  | pending + 1, w => (writeBits sk (1 - bit) 1 w).bind (writePending sk bit pending)

/-- `Encoder::output_bit_plus_pending`: emit `bit` and then `pending`
complement bits, resetting the pending count to zero. -/
def outputBitPlusPending (sk : SinkSpec) (bit : ℕ) (pending : ℕ) (w : BitWriter) :
    Option BitWriter :=
  (writeBits sk bit 1 w).bind (writePending sk bit pending)

/-- Result of one pass through the body of a renormalization loop. -/
inductive IterRes (α : Type) where
  | stop
  | next (a : α)
  | fail
  deriving DecidableEq, Repr

/-- One iteration of the encoder renormalization loop (the inner `loop` of
`Encoder::compress`): the E1/E2/E3 guards, the bit emission, and the shared
`high = (high << 1 + 1) & MAX_CODE; low = (low << 1) & MAX_CODE` update,
with `& MAX_CODE` written as `% 2 ^ 32`.  `stop` is the `break` branch. -/
def renormIter (sk : SinkSpec) (low high pending : ℕ) (w : BitWriter) :
    IterRes (ℕ × ℕ × ℕ × BitWriter) :=
  if high < ONE_HALF then
    match outputBitPlusPending sk 0 pending w with
    | none => .fail
    | some w2 => .next ((2 * low) % 2 ^ 32, (2 * high + 1) % 2 ^ 32, 0, w2)
  else if ONE_HALF ≤ low then
    match outputBitPlusPending sk 1 pending w with
    | none => .fail
    | some w2 => .next ((2 * low) % 2 ^ 32, (2 * high + 1) % 2 ^ 32, 0, w2)
  else if ONE_FOURTH ≤ low ∧ high < THREE_FOURTHS then
    .next ((2 * (low - ONE_FOURTH)) % 2 ^ 32, (2 * (high - ONE_FOURTH) + 1) % 2 ^ 32,
      pending + 1, w)
  else
    .stop

/-- The encoder renormalization loop, iterating `renormIter` until `break`
(with fuel; 64 exceeds the at most 32 possible doublings of the range). -/
def renormLoop (sk : SinkSpec) : ℕ → ℕ → ℕ → ℕ → BitWriter → Res (ℕ × ℕ × ℕ × BitWriter)
  | 0, _, _, _, _ => .fuelOut
  | fuel + 1, low, high, pending, w =>
    match renormIter sk low high pending w with
    | .stop => .ok (low, high, pending, w)
    | .fail => .ioErr
    | .next (l, h, p, w2) => renormLoop sk fuel l h p w2

/-- One symbol step of `Encoder::compress`: look up and update the model,
narrow the interval, renormalize. -/
def compressSym (sk : SinkSpec) (st : State) (low high pending : ℕ) (w : BitWriter)
    (c : ℕ) : Res (State × ℕ × ℕ × ℕ × BitWriter) :=
  let pr := State.getProbAndUpdate c st
  let p := pr.1
  let range := high - low + 1
  let high2 := low + range * p.high / p.total - 1
  let low2 := low + range * p.low / p.total
  Res.bind (renormLoop sk 64 low2 high2 pending w)
    (fun q => .ok (pr.2, q.1, q.2.1, q.2.2.1, q.2.2.2))

/-- The code after the encoding loop of `Encoder::compress`: increment
`pending_bits`, emit the final bit (`0` if `low < ONE_FOURTH`, else `1`)
plus pending bits, then `outp.flush().unwrap()` — a flush error panics —
and return the bytes handed to the sink. -/
def finalizeEncoder (sk : SinkSpec) (low pending : ℕ) (w : BitWriter) : Res (List ℕ) :=
  match outputBitPlusPending sk (if low < ONE_FOURTH then 0 else 1) (pending + 1) w with
  | none => .ioErr
  | some w2 =>
    match flushW sk w2 with
    | none => .crashed
    | some w3 => .ok w3.out

/-- The main loop of `Encoder::compress` over the remaining input bytes: a
short read is converted to the EOF symbol, which is encoded and then the
loop breaks to the final flush. -/
def compressGo (sk : SinkSpec) : State → ℕ → ℕ → ℕ → BitWriter → List ℕ → Res (List ℕ)
  | st, low, high, pending, w, [] =>
    Res.bind (compressSym sk st low high pending w EOFSYM)
      (fun q => finalizeEncoder sk q.2.1 q.2.2.2.1 q.2.2.2.2)
  | st, low, high, pending, w, b :: rest =>
    Res.bind (compressSym sk st low high pending w (b % 256))
      (fun q => compressGo sk q.1 q.2.1 q.2.2.1 q.2.2.2.1 q.2.2.2.2 rest)

/-- `Encoder::compress` / the module-level `compress` entry point, on a
fresh model with `low = 0`, `high = MAX_CODE`, no pending bits. -/
def compress (sk : SinkSpec) (input : List ℕ) : Res (List ℕ) :=
  compressGo sk State.new 0 MAX_CODE 0 BitWriter.new input

/-! ## Decoder (`impl Decoder` of src/arith.rs) -/

/-- The decoder renormalization loop (the inner `loop` of
`Decoder::decompress`): mirrors E1/E2/E3, also subtracting from `value`,
then shifts `low`, `high`, `value` and pulls one fresh bit into `value`.
A failed bit read is the unexpected-end-of-stream error. -/
def decRenorm : ℕ → ℕ → ℕ → ℕ → BitReader → Res (ℕ × ℕ × ℕ × BitReader)
  | 0, _, _, _, _ => .fuelOut
  | fuel + 1, low, high, value, br =>
    if high < ONE_HALF then
      match readBits 1 br with
      | none => .eofErr
      | some (b, br2) => decRenorm fuel (2 * low) (2 * high + 1) (2 * value + b) br2
    else if ONE_HALF ≤ low then
      match readBits 1 br with
      | none => .eofErr
      | some (b, br2) =>
        decRenorm fuel (2 * (low - ONE_HALF)) (2 * (high - ONE_HALF) + 1)
          (2 * (value - ONE_HALF) + b) br2
    else if ONE_FOURTH ≤ low ∧ high < THREE_FOURTHS then
      match readBits 1 br with
      | none => .eofErr
      | some (b, br2) =>
        decRenorm fuel (2 * (low - ONE_FOURTH)) (2 * (high - ONE_FOURTH) + 1)
          (2 * (value - ONE_FOURTH) + b) br2
    else
      .ok (low, high, value, br)

/-- The symbol loop of `Decoder::decompress`: compute the scaled count,
resolve and update the symbol (`none` from the scan is the `unreachable!()`
panic), stop on EOF, otherwise write the byte, narrow the interval and
renormalize. -/
def decodeGo : ℕ → State → ℕ → ℕ → ℕ → BitReader → List ℕ → Res (List ℕ)
  | 0, _, _, _, _, _, _ => .fuelOut
  | fuel + 1, st, low, high, value, br, out =>
    let range := high - low + 1
    let count := ((value - low + 1) * State.getCount st - 1) / range
    match State.getSymbolAndUpdate count st with
    | none => .crashed
    | some ((p, c), st2) =>
      if c = EOFSYM then .ok out
      else
        let out2 := out ++ [c % 256]
        let high2 := low + range * p.high / p.total - 1
        let low2 := low + range * p.low / p.total
        Res.bind (decRenorm (fuel + 1) low2 high2 value br)
          (fun q => decodeGo fuel st2 q.1 q.2.1 q.2.2.1 q.2.2.2 out2)

/-- `Decoder::decompress` / the module-level `decompress` entry point: a
bit reader with a padding budget of `32 * 2` bits, `value` primed with the
first 32 bits, fresh model, full interval. -/
def decompress (fuel : ℕ) (bytes : List ℕ) : Res (List ℕ) :=
  let br : BitReader := ⟨bytes, 0, 0x80, 32 * 2⟩
  match readBits 32 br with
  | none => .eofErr
  | some (v, br2) => decodeGo fuel State.new 0 MAX_CODE v br2 []

end Campross

namespace Campross

/-! ## Invariants of the frequency model

Reachable model states have `freqs[0] = 0`, strictly increasing adjacent
cumulative entries (every symbol keeps an individual count of at least 1),
and a total strictly below `MAX_FREQ`. -/

/-- The model-table invariant. -/
def Inv (s : State) : Prop :=
  s.freqs 0 = 0 ∧ (∀ i, i < SYM_CNT → s.freqs i + 1 ≤ s.freqs (i + 1)) ∧
    s.freqs SYM_CNT < MAX_FREQ

/-- Model states reachable from `State::new` through the mutating
operations of the coder (`update`, and `downscale`, which the test suite
also calls directly; `preload`, `get_prob_and_update` and
`get_symbol_and_update` mutate only through `update`, always with a symbol
in `[0, 256]`). -/
inductive Reachable : State → Prop where
  | base : Reachable State.new
  | step (sym : ℕ) {s : State} : Reachable s → sym ≤ EOFSYM → Reachable (State.update sym s)
  | scale {s : State} : Reachable s → Reachable (State.downscale s)

lemma inv_new : Inv State.new := by
  refine ⟨rfl, fun i _ => le_refl _, ?_⟩
  show (257 : ℕ) < 0x3fff
  norm_num

lemma downStep1_zero (f : ℕ → ℕ) : downStep1 f 0 = f 0 := by
  simp [downStep1, SYM_CNT]

lemma downStep1_top (f : ℕ → ℕ) : downStep1 f SYM_CNT = 1 := by
  simp [downStep1]

lemma downStep1_mid (f : ℕ → ℕ) (i : ℕ) (h1 : 1 ≤ i) (h2 : i < SYM_CNT) :
    downStep1 f i = f i - f (i - 1) := by
  have hne : i ≠ SYM_CNT := Nat.ne_of_lt h2
  simp [downStep1, hne, h1, h2]

lemma downStep2_zero (f : ℕ → ℕ) : downStep2 f 0 = f 0 := by
  simp [downStep2]

lemma diff_pos (s : State) (hd : ∀ i, i < SYM_CNT → s.freqs i + 1 ≤ s.freqs (i + 1))
    (i : ℕ) (h1 : 1 ≤ i) (h2 : i ≤ SYM_CNT) :
    1 ≤ downStep2 (downStep1 s.freqs) i := by
  rcases Nat.lt_or_ge i SYM_CNT with hlt | hge
  · have hstep := hd (i - 1) (by omega)
    have hi : i - 1 + 1 = i := by omega
    rw [hi] at hstep
    have hg1 : downStep1 s.freqs i = s.freqs i - s.freqs (i - 1) := downStep1_mid _ _ h1 hlt
    unfold downStep2
    rw [hg1]
    split
    · omega
    · omega
  · have hi : i = SYM_CNT := by omega
    subst hi
    unfold downStep2
    rw [downStep1_top]
    simp

lemma diff_halved (s : State) (hd : ∀ i, i < SYM_CNT → s.freqs i + 1 ≤ s.freqs (i + 1))
    (i : ℕ) (h1 : 1 ≤ i) (h2 : i ≤ SYM_CNT) :
    2 * downStep2 (downStep1 s.freqs) i ≤ downStep1 s.freqs i + 1 := by
  have hpos : 1 ≤ downStep2 (downStep1 s.freqs) i := diff_pos s hd i h1 h2
  unfold downStep2 at hpos ⊢
  split
  · omega
  · rename_i hcond
    rcases Nat.lt_or_ge i SYM_CNT with hlt | hge
    · have : ¬ 1 < downStep1 s.freqs i := by
        intro hgt
        exact hcond ⟨h1, hlt, hgt⟩
      omega
    · have hi : i = SYM_CNT := by omega
      subst hi
      rw [downStep1_top]

lemma downscale_freqs (s : State) (i : ℕ) (h : i ≤ SYM_CNT) :
    (State.downscale s).freqs i = cumSum (downStep2 (downStep1 s.freqs)) i := by
  simp [State.downscale, downStep3, h]

lemma cumSum_zero_val (s : State) (h0 : s.freqs 0 = 0) :
    cumSum (downStep2 (downStep1 s.freqs)) 0 = 0 := by
  show downStep2 (downStep1 s.freqs) 0 = 0
  rw [downStep2_zero, downStep1_zero, h0]

lemma cumSum_growth (s : State) (h0 : s.freqs 0 = 0)
    (hd : ∀ i, i < SYM_CNT → s.freqs i + 1 ≤ s.freqs (i + 1)) :
    ∀ i, i < SYM_CNT → 2 * cumSum (downStep2 (downStep1 s.freqs)) i ≤ s.freqs i + i := by
  intro i
  induction i with
  | zero =>
    intro _
    rw [cumSum_zero_val s h0, h0]
  | succ n ih =>
    intro hlt
    have hn : n < SYM_CNT := by omega
    have hrec := ih hn
    have hhalf := diff_halved s hd (n + 1) (by omega) (by omega)
    have hg1 : downStep1 s.freqs (n + 1) = s.freqs (n + 1) - s.freqs n := by
      rw [downStep1_mid s.freqs (n + 1) (by omega) hlt]
      simp
    have hmono := hd n hn
    rw [hg1] at hhalf
    show 2 * (cumSum (downStep2 (downStep1 s.freqs)) n + downStep2 (downStep1 s.freqs) (n + 1)) ≤
      s.freqs (n + 1) + (n + 1)
    omega

lemma downscale_inv (s : State) (h0 : s.freqs 0 = 0)
    (hd : ∀ i, i < SYM_CNT → s.freqs i + 1 ≤ s.freqs (i + 1))
    (ht : s.freqs SYM_CNT ≤ MAX_FREQ) : Inv (State.downscale s) := by
  refine ⟨?_, ?_, ?_⟩
  · rw [downscale_freqs s 0 (by norm_num [SYM_CNT])]
    exact cumSum_zero_val s h0
  · intro i hi
    rw [downscale_freqs s i (by omega), downscale_freqs s (i + 1) (by omega)]
    have hpos : 1 ≤ downStep2 (downStep1 s.freqs) (i + 1) := diff_pos s hd (i + 1) (by omega) (by omega)
    show cumSum (downStep2 (downStep1 s.freqs)) i + 1 ≤
      cumSum (downStep2 (downStep1 s.freqs)) i + downStep2 (downStep1 s.freqs) (i + 1)
    omega
  · rw [downscale_freqs s SYM_CNT (le_refl _)]
    have h256 : (SYM_CNT : ℕ) = 256 + 1 := rfl
    have hgrow := cumSum_growth s h0 hd 256 (by norm_num [SYM_CNT])
    have htop : downStep2 (downStep1 s.freqs) SYM_CNT = 1 := by
      unfold downStep2
      rw [downStep1_top]
      simp [SYM_CNT]
    have hmono := hd 256 (by norm_num [SYM_CNT])
    rw [h256]
    show cumSum (downStep2 (downStep1 s.freqs)) 256 + downStep2 (downStep1 s.freqs) (256 + 1) <
      MAX_FREQ
    rw [← h256, htop]
    have h257 : s.freqs 256 + 1 ≤ s.freqs SYM_CNT := hmono
    have hmf : (MAX_FREQ : ℕ) = 16383 := rfl
    omega

lemma bumped_zero (sym : ℕ) (f : ℕ → ℕ) : bumped sym f 0 = f 0 := by
  simp [bumped]

lemma bumped_diffs (sym : ℕ) (f : ℕ → ℕ) (hd : ∀ i, i < SYM_CNT → f i + 1 ≤ f (i + 1)) :
    ∀ i, i < SYM_CNT → bumped sym f i + 1 ≤ bumped sym f (i + 1) := by
  intro i hi
  have := hd i hi
  unfold bumped
  split
  · split
    · omega
    · rename_i h1 h2
      exact absurd ⟨by omega, by omega⟩ h2
  · split
    · omega
    · omega

lemma bumped_top (sym : ℕ) (f : ℕ → ℕ) : bumped sym f SYM_CNT ≤ f SYM_CNT + 1 := by
  unfold bumped
  split
  · omega
  · omega

lemma update_inv (sym : ℕ) (s : State) (hs : Inv s) : Inv (State.update sym s) := by
  obtain ⟨h0, hd, ht⟩ := hs
  have hb0 : bumped sym s.freqs 0 = 0 := by rw [bumped_zero]; exact h0
  unfold State.update
  split
  · rename_i hge
    exact downscale_inv ⟨bumped sym s.freqs⟩ hb0 (bumped_diffs sym s.freqs hd)
      (le_trans (bumped_top sym s.freqs) (by omega))
  · rename_i hlt
    refine ⟨hb0, bumped_diffs sym s.freqs hd, ?_⟩
    show bumped sym s.freqs SYM_CNT < MAX_FREQ
    omega

lemma reachable_inv {s : State} (h : Reachable s) : Inv s := by
  induction h with
  | base => exact inv_new
  | step sym hr _ ih => exact update_inv sym _ ih
  | scale hr ih => exact downscale_inv _ ih.1 ih.2.1 (le_of_lt ih.2.2)

end Campross

namespace Campross

/-! ## Characterization of the symbol scan -/

lemma symSearch_spec (s : State) (scaled : ℕ) :
    ∀ k i, (∃ j, i ≤ j ∧ j < i + k ∧ scaled < s.freqs (j + 1)) →
      ∃ sym, i ≤ sym ∧ sym < i + k ∧
        symSearch s scaled k i =
          some (⟨s.freqs sym, s.freqs (sym + 1), s.freqs SYM_CNT⟩, sym) ∧
        scaled < s.freqs (sym + 1) ∧
        ∀ j, i ≤ j → j < sym → s.freqs (j + 1) ≤ scaled := by
  intro k
  induction k with
  | zero =>
    intro i hex
    obtain ⟨j, hj1, hj2, _⟩ := hex
    omega
  | succ k ih =>
    intro i hex
    obtain ⟨j, hj1, hj2, hjlt⟩ := hex
    by_cases h : scaled < s.freqs (i + 1)
    · refine ⟨i, le_refl i, by omega, ?_, h, fun j2 hj3 hj4 => by omega⟩
      simp [symSearch, h]
    · have hij : i < j := by
        rcases Nat.eq_or_lt_of_le hj1 with heq | hlt
        · subst heq; exact absurd hjlt h
        · exact hlt
      obtain ⟨sym, hs1, hs2, hs3, hs4, hs5⟩ := ih (i + 1) ⟨j, by omega, by omega, hjlt⟩
      refine ⟨sym, by omega, by omega, ?_, hs4, ?_⟩
      · simp only [symSearch, if_neg h]
        exact hs3
      · intro j2 hj3 hj4
        rcases Nat.eq_or_lt_of_le hj3 with heq | hlt2
        · subst heq
          exact Nat.le_of_not_lt h
        · exact hs5 j2 hlt2 hj4

lemma getSymbolAndUpdate_some (s : State) (scaled : ℕ) (h : scaled < s.freqs SYM_CNT) :
    ∃ sym, sym < SYM_CNT ∧
      State.getSymbolAndUpdate scaled s =
        some ((⟨s.freqs sym, s.freqs (sym + 1), s.freqs SYM_CNT⟩, sym), State.update sym s) ∧
      scaled < s.freqs (sym + 1) ∧ ∀ j, j < sym → s.freqs (j + 1) ≤ scaled := by
  have h257 : (SYM_CNT : ℕ) = 257 := rfl
  have hwit : ∃ j, 0 ≤ j ∧ j < 0 + SYM_CNT ∧ scaled < s.freqs (j + 1) := by
    refine ⟨256, Nat.zero_le _, by omega, ?_⟩
    have : (256 : ℕ) + 1 = SYM_CNT := by omega
    rw [this]
    exact h
  obtain ⟨sym, h1, h2, h3, h4, h5⟩ := symSearch_spec s scaled SYM_CNT 0 hwit
  refine ⟨sym, by omega, ?_, h4, fun j hj => h5 j (Nat.zero_le _) hj⟩
  unfold State.getSymbolAndUpdate
  rw [h3]

end Campross

namespace Campross

/-! ## Emission lemmas for the bit-plus-pending mechanism -/

lemma writePending_eq (sk : SinkSpec) (bit : ℕ) :
    ∀ p w, writePending sk bit p w = writeBitList sk (List.replicate p (1 - bit)) w := by
  intro p
  induction p with
  | zero => intro w; rfl
  | succ n ih =>
    intro w
    show (writeBits sk (1 - bit) 1 w).bind (writePending sk bit n) =
      writeBitList sk (List.replicate (n + 1) (1 - bit)) w
    rw [List.replicate_succ]
    show _ = (writeBits sk (1 - bit) 1 w).bind (writeBitList sk (List.replicate n (1 - bit)))
    cases writeBits sk (1 - bit) 1 w with
    | none => rfl
    | some w2 => exact ih w2

lemma outputBitPlusPending_eq (sk : SinkSpec) (bit pending : ℕ) (w : BitWriter) :
    outputBitPlusPending sk bit pending w =
      writeBitList sk (bit :: List.replicate pending (1 - bit)) w := by
  show (writeBits sk bit 1 w).bind (writePending sk bit pending) =
    (writeBits sk bit 1 w).bind (writeBitList sk (List.replicate pending (1 - bit)))
  cases writeBits sk bit 1 w with
  | none => rfl
  | some w2 => exact writePending_eq sk bit pending w2

/-! ## The spec-side renormalization rule (claim C5) -/

/-- Modelled from the spec: one pass of the renormalization rules E1, E2,
E3 of section 4.3.  E1 (`high < HALF`): emit bit 0 then `pending_bits`
complementary 1 bits, reset the pending count, double.  E2 (`low ≥ HALF`):
emit bit 1 then `pending_bits` complementary 0 bits, reset the pending
count, subtract `HALF` from `low` and `high`, then double.  E3
(`low ≥ QUARTER ∧ high < 3·QUARTER`): defer one pending bit, subtract
`QUARTER`, then double.  Otherwise exit the loop.  No masking appears in
these rules. -/
def specRenormIter (sk : SinkSpec) (low high pending : ℕ) (w : BitWriter) :
    IterRes (ℕ × ℕ × ℕ × BitWriter) :=
  if high < ONE_HALF then
    match writeBitList sk (0 :: List.replicate pending 1) w with
    | none => .fail
    | some w2 => .next (low * 2, high * 2 + 1, 0, w2)
  else if ONE_HALF ≤ low then
    match writeBitList sk (1 :: List.replicate pending 0) w with
    | none => .fail
    | some w2 => .next ((low - ONE_HALF) * 2, (high - ONE_HALF) * 2 + 1, 0, w2)
  else if ONE_FOURTH ≤ low ∧ high < THREE_FOURTHS then
    .next ((low - ONE_FOURTH) * 2, (high - ONE_FOURTH) * 2 + 1, pending + 1, w)
  else
    .stop

/-- C5: for `low ≤ high ≤ MAX_CODE`, one iteration of the implementation's
renormalization loop — which doubles and then masks with `MAX_CODE` —
performs exactly the spec's subtract-then-double rule: in the E2 case it
emits bit 1 followed by `pending_bits` complementary 0 bits (resetting the
pending count) and moves the interval to `low = (low - HALF) * 2`,
`high = (high - HALF) * 2 + 1`, and the E1 and E3 cases likewise match
their stated rules. -/
theorem renorm_iteration_matches_spec_rule (sk : SinkSpec) (low high pending : ℕ)
    (w : BitWriter) (hlh : low ≤ high) (hhm : high ≤ MAX_CODE) :
    renormIter sk low high pending w = specRenormIter sk low high pending w := by
  have hM : (MAX_CODE : ℕ) = 4294967295 := rfl
  have hH : (ONE_HALF : ℕ) = 2147483648 := rfl
  have hQ : (ONE_FOURTH : ℕ) = 1073741824 := rfl
  have hT : (THREE_FOURTHS : ℕ) = 3221225472 := rfl
  have hP : (2 : ℕ) ^ 32 = 4294967296 := by norm_num
  unfold renormIter specRenormIter
  simp only [hP]
  split
  · rename_i h1
    rw [outputBitPlusPending_eq]
    norm_num
    cases writeBitList sk (0 :: List.replicate pending 1) w with
    | none => rfl
    | some w2 =>
      have e1 : (2 * low) % 4294967296 = low * 2 := by omega
      have e2 : (2 * high + 1) % 4294967296 = high * 2 + 1 := by omega
      simp [e1, e2]
  · split
    · rename_i h1 h2
      rw [outputBitPlusPending_eq]
      norm_num
      cases writeBitList sk (1 :: List.replicate pending 0) w with
      | none => rfl
      | some w2 =>
        have e1 : (2 * low) % 4294967296 = (low - ONE_HALF) * 2 := by omega
        have e2 : (2 * high + 1) % 4294967296 = (high - ONE_HALF) * 2 + 1 := by omega
        simp [e1, e2]
    · split
      · rename_i h1 h2 h3
        have e1 : (2 * (low - ONE_FOURTH)) % 4294967296 = (low - ONE_FOURTH) * 2 := by omega
        have e2 : (2 * (high - ONE_FOURTH) + 1) % 4294967296 = (high - ONE_FOURTH) * 2 + 1 := by
          omega
        rw [e1, e2]
      · rfl

/-- Witness for C5 at a concrete E2-state input. -/
theorem renorm_iteration_matches_spec_rule_witness :
    (ONE_HALF : ℕ) ≤ MAX_CODE ∧ (MAX_CODE : ℕ) ≤ MAX_CODE ∧
      renormIter vecSink ONE_HALF MAX_CODE 2 BitWriter.new =
        specRenormIter vecSink ONE_HALF MAX_CODE 2 BitWriter.new :=
  ⟨by decide, le_refl _,
    renorm_iteration_matches_spec_rule vecSink ONE_HALF MAX_CODE 2 BitWriter.new
      (by decide) (le_refl _)⟩

end Campross

namespace Campross

/-! ## Pure writer semantics and the EOF flush (claim C6) -/

/-- Spec-level effect of writing one bit (value taken mod 2) through the
bit writer when the sink accepts everything. -/
def writeBitPure (bit : ℕ) (w : BitWriter) : BitWriter :=
  let buf := if bit % 2 = 1 then w.buf ||| w.mask else w.buf
  let mask := w.mask / 2
  if mask = 0 then ⟨0, 0x80, w.out ++ [buf]⟩ else ⟨buf, mask, w.out⟩

/-- Spec-level effect of writing a bit sequence, first bit first. -/
def writeListPure : List ℕ → BitWriter → BitWriter
  | [], w => w
  | b :: rest, w => writeListPure rest (writeBitPure b w)

/-- Spec-level effect of the final flush on the writer state. -/
def doFlushPure (w : BitWriter) : BitWriter :=
  if w.mask ≠ 0x80 then ⟨w.buf, w.mask, w.out ++ [w.buf]⟩ else w

lemma writeBits_one_vecSink (bit : ℕ) (w : BitWriter) :
    writeBits vecSink bit 1 w = some (writeBitPure bit w) := by
  show (writeBit vecSink (bit &&& 1 <<< 0 ≠ 0) w).bind (writeBits vecSink bit 0) =
    some (writeBitPure bit w)
  have hbit : bit &&& 1 <<< 0 = bit % 2 := by
    rw [Nat.shiftLeft_zero, Nat.and_one_is_mod]
  rw [hbit]
  rcases Nat.mod_two_eq_zero_or_one bit with h | h
  · simp [writeBit, writeBitPure, vecSink, h]
    split
    · rfl
    · rfl
  · simp [writeBit, writeBitPure, vecSink, h]
    split
    · rfl
    · rfl

lemma writeBitList_vecSink (bits : List ℕ) :
    ∀ w, writeBitList vecSink bits w = some (writeListPure bits w) := by
  induction bits with
  | nil => intro w; rfl
  | cons b rest ih =>
    intro w
    show (writeBits vecSink b 1 w).bind (writeBitList vecSink rest) = _
    rw [writeBits_one_vecSink]
    show writeBitList vecSink rest (writeBitPure b w) = _
    rw [ih (writeBitPure b w)]
    rfl

lemma flushW_vecSink (w : BitWriter) : flushW vecSink w = some (doFlushPure w) := by
  unfold flushW doFlush doFlushPure vecSink
  split
  · rfl
  · rfl

/-- C6: when the encoder reaches the EOF sentinel, after its interval
narrowing and renormalization the finalization increments `pending_bits`
exactly once and pushes through the writer exactly one final bit — 0 if
`low < QUARTER`, else 1 — followed by the accumulated pending complement
bits, and then flushes the bit writer; the resulting stream is exactly the
flush of those bits, so nothing further is emitted. -/
theorem eof_flush_emits_single_bit_plus_pending (low pending : ℕ) (w : BitWriter) :
    finalizeEncoder vecSink low pending w =
      Res.ok (doFlushPure (writeListPure ((if low < ONE_FOURTH then 0 else 1) ::
        List.replicate (pending + 1) (1 - (if low < ONE_FOURTH then 0 else 1))) w)).out := by
  unfold finalizeEncoder
  rw [outputBitPlusPending_eq, writeBitList_vecSink]
  show (match flushW vecSink (writeListPure _ w) with
    | none => Res.crashed
    | some w3 => Res.ok w3.out) = _
  rw [flushW_vecSink]

end Campross

namespace Campross

/-! ## Decoder safety (claim C10)

For every input — well formed or corrupt — `low ≤ value ≤ high` holds at
the head of every symbol-decoding iteration, so the scaled count stays
below `freqs[SYM_CNT]`, the symbol scan always finds a symbol, and the
`unreachable!()` panic can never fire. -/

lemma readBitsAux_lt (count : ℕ) :
    ∀ acc br v br2, readBitsAux acc count br = some (v, br2) → v < (acc + 1) * 2 ^ count := by
  induction count with
  | zero =>
    intro acc br v br2 h
    unfold readBitsAux at h
    simp at h
    omega
  | succ n ih =>
    intro acc br v br2 h
    unfold readBitsAux at h
    cases hr : readBit br with
    | none => rw [hr] at h; simp at h
    | some pr =>
      rw [hr] at h
      obtain ⟨bit, r2⟩ := pr
      have hv := ih (2 * acc + if bit then 1 else 0) r2 v br2 h
      have hb : (if bit then 1 else 0) ≤ 1 := by cases bit <;> simp
      calc v < (2 * acc + (if bit then 1 else 0) + 1) * 2 ^ n := hv
        _ ≤ (2 * (acc + 1)) * 2 ^ n := Nat.mul_le_mul_right _ (by omega)
        _ = (acc + 1) * 2 ^ (n + 1) := by ring
      
lemma readBits1_le (br : BitReader) (b : ℕ) (br2 : BitReader)
    (h : readBits 1 br = some (b, br2)) : b ≤ 1 := by
  have := readBitsAux_lt 1 0 br b br2 h
  omega

lemma count_lt_total (low high value T : ℕ) (h1 : low ≤ value) (h2 : value ≤ high)
    (hT : 1 ≤ T) : ((value - low + 1) * T - 1) / (high - low + 1) < T := by
  have hr0 : 0 < high - low + 1 := by omega
  rw [Nat.div_lt_iff_lt_mul hr0]
  have hx : value - low + 1 ≤ high - low + 1 := by omega
  have h3 : (value - low + 1) * T ≤ T * (high - low + 1) :=
    le_trans (Nat.mul_le_mul_right _ hx) (le_of_eq (Nat.mul_comm _ _))
  have hxT : 0 < (value - low + 1) * T := Nat.mul_pos (by omega) (by omega)
  omega

lemma narrow_keeps_value (low high value T L H : ℕ)
    (h1 : low ≤ value) (h2 : value ≤ high) (hT : 1 ≤ T)
    (hcl : L ≤ ((value - low + 1) * T - 1) / (high - low + 1))
    (hch : ((value - low + 1) * T - 1) / (high - low + 1) < H) :
    low + (high - low + 1) * L / T ≤ value ∧
      value ≤ low + (high - low + 1) * H / T - 1 := by
  have hr0 : 0 < high - low + 1 := by omega
  have hT0 : 0 < T := by omega
  have hxT : 0 < (value - low + 1) * T := Nat.mul_pos (by omega) (by omega)
  constructor
  · have hLr : L * (high - low + 1) ≤ (value - low + 1) * T - 1 :=
      (Nat.le_div_iff_mul_le hr0).mp hcl
    have h3 : (high - low + 1) * L < (value - low + 1) * T := by
      have := Nat.mul_comm L (high - low + 1)
      omega
    have h4 : (high - low + 1) * L / T < value - low + 1 := by
      rw [Nat.div_lt_iff_lt_mul hT0]
      omega
    omega
  · have hHr : (value - low + 1) * T - 1 < H * (high - low + 1) :=
      (Nat.div_lt_iff_lt_mul hr0).mp hch
    have h3 : (value - low + 1) * T ≤ (high - low + 1) * H := by
      have := Nat.mul_comm H (high - low + 1)
      omega
    have h4 : value - low + 1 ≤ (high - low + 1) * H / T := by
      rw [Nat.le_div_iff_mul_le hT0]
      exact h3
    omega

lemma decRenorm_no_crash : ∀ fuel low high value br,
    decRenorm fuel low high value br ≠ Res.crashed := by
  intro fuel
  induction fuel with
  | zero => intro low high value br; simp [decRenorm]
  | succ n ih =>
    intro low high value br
    unfold decRenorm
    split
    · cases hr : readBits 1 br with
      | none => simp
      | some pr => obtain ⟨b, br2⟩ := pr; exact ih _ _ _ _
    · split
      · cases hr : readBits 1 br with
        | none => simp
        | some pr => obtain ⟨b, br2⟩ := pr; exact ih _ _ _ _
      · split
        · cases hr : readBits 1 br with
          | none => simp
          | some pr => obtain ⟨b, br2⟩ := pr; exact ih _ _ _ _
        · simp

lemma decRenorm_inv : ∀ fuel low high value br l h v br2,
    low ≤ value → value ≤ high →
    decRenorm fuel low high value br = Res.ok (l, h, v, br2) → l ≤ v ∧ v ≤ h := by
  intro fuel
  induction fuel with
  | zero =>
    intro low high value br l h v br2 _ _ hres
    exact absurd hres (by simp [decRenorm])
  | succ n ih =>
    intro low high value br l h v br2 h1 h2 hres
    unfold decRenorm at hres
    split at hres
    · cases hr : readBits 1 br with
      | none => rw [hr] at hres; simp at hres
      | some pr =>
        rw [hr] at hres
        obtain ⟨b, br3⟩ := pr
        have hb := readBits1_le br b br3 hr
        exact ih _ _ _ _ _ _ _ _ (by omega) (by omega) hres
    · split at hres
      · cases hr : readBits 1 br with
        | none => rw [hr] at hres; simp at hres
        | some pr =>
          rw [hr] at hres
          obtain ⟨b, br3⟩ := pr
          have hb := readBits1_le br b br3 hr
          rename_i hc1 hc2
          exact ih _ _ _ _ _ _ _ _ (by omega) (by omega) hres
      · split at hres
        · cases hr : readBits 1 br with
          | none => rw [hr] at hres; simp at hres
          | some pr =>
            rw [hr] at hres
            obtain ⟨b, br3⟩ := pr
            have hb := readBits1_le br b br3 hr
            rename_i hc1 hc2 hc3
            exact ih _ _ _ _ _ _ _ _ (by omega) (by omega) hres
        · simp at hres
          obtain ⟨hl, hh, hv, _⟩ := hres
          omega

end Campross

namespace Campross

lemma decodeGo_no_crash : ∀ fuel st low high value br out,
    Reachable st → low ≤ value → value ≤ high →
    decodeGo fuel st low high value br out ≠ Res.crashed := by
  intro fuel
  induction fuel with
  | zero => intro st low high value br out _ _ _; simp [decodeGo]
  | succ n ih =>
    intro st low high value br out hreach h1 h2
    obtain ⟨hz, hd, htot⟩ := reachable_inv hreach
    have hgc : State.getCount st = st.freqs SYM_CNT := rfl
    have hT : 1 ≤ State.getCount st := by
      have h256 := hd 256 (by norm_num [SYM_CNT])
      have he : (256 : ℕ) + 1 = SYM_CNT := rfl
      rw [he] at h256
      rw [hgc]
      omega
    have hcnt : ((value - low + 1) * State.getCount st - 1) / (high - low + 1) <
        st.freqs SYM_CNT := by
      rw [← hgc]
      exact count_lt_total low high value (State.getCount st) h1 h2 hT
    obtain ⟨sym, hsym, hEq, hlt, hge⟩ := getSymbolAndUpdate_some st
      (((value - low + 1) * State.getCount st - 1) / (high - low + 1)) hcnt
    have hcl : st.freqs sym ≤
        ((value - low + 1) * State.getCount st - 1) / (high - low + 1) := by
      cases sym with
      | zero => rw [hz]; exact Nat.zero_le _
      | succ j => exact hge j (Nat.lt_succ_self j)
    have hTf : 1 ≤ st.freqs SYM_CNT := by rw [← hgc]; exact hT
    obtain ⟨hb1, hb2⟩ := narrow_keeps_value low high value (st.freqs SYM_CNT)
      (st.freqs sym) (st.freqs (sym + 1)) h1 h2 hTf (by rw [hgc] at hcl; exact hcl)
      (by rw [hgc] at hlt; exact hlt)
    unfold decodeGo
    simp only [hEq]
    by_cases hEOF : sym = EOFSYM
    · simp [hEOF]
    · simp only [hEOF, if_false]
      cases hD : decRenorm (n + 1)
          (low + (high - low + 1) * st.freqs sym / st.freqs SYM_CNT)
          (low + (high - low + 1) * st.freqs (sym + 1) / st.freqs SYM_CNT - 1) value br with
      | ok q =>
        obtain ⟨l2, hh2, v2, br3⟩ := q
        have hiv := decRenorm_inv (n + 1) _ _ value br l2 hh2 v2 br3 hb1 hb2 hD
        have hsle : sym ≤ EOFSYM := by
          have hS : (SYM_CNT : ℕ) = 257 := rfl
          have hEc : (EOFSYM : ℕ) = 256 := rfl
          omega
        exact ih (State.update sym st) l2 hh2 v2 br3 (out ++ [sym % 256])
          (Reachable.step sym hreach hsle) hiv.1 hiv.2
      | ioErr => simp [Res.bind]
      | eofErr => simp [Res.bind]
      | crashed => exact absurd hD (decRenorm_no_crash _ _ _ _ _)
      | fuelOut => simp [Res.bind]

/-- C10: for every input byte stream — well-formed or corrupt — the scaled
count handed to `get_symbol_and_update` stays below `freqs[SYM_CNT]` at
every iteration (because `low ≤ value ≤ high` is invariant), so the
`unreachable!()` branch is never reached and `decompress` never panics. -/
theorem decompress_never_reaches_unreachable (bytes : List ℕ) (fuel : ℕ) :
    decompress fuel bytes ≠ Res.crashed := by
  cases hr : readBits 32 ⟨bytes, 0, 0x80, 32 * 2⟩ with
  | none =>
    simp only [decompress]
    rw [hr]
    simp
  | some pr =>
    obtain ⟨v, br2⟩ := pr
    have hv : v < (0 + 1) * 2 ^ 32 := readBitsAux_lt 32 0 ⟨bytes, 0, 0x80, 32 * 2⟩ v br2 hr
    have hvM : v ≤ MAX_CODE := by
      have hM : (MAX_CODE : ℕ) = 4294967295 := rfl
      have hP : (0 + 1) * 2 ^ 32 = 4294967296 := by norm_num
      omega
    simp only [decompress]
    rw [hr]
    exact decodeGo_no_crash fuel State.new 0 MAX_CODE v br2 [] Reachable.base
      (Nat.zero_le v) hvM

end Campross

namespace Campross

/-! ## Claim theorems on the model invariants -/

/-- C3: for every model state reachable from `State::new` by update /
preload operations and every symbol in `[0, 256]`, after `State::update`
completes (including any downscale it triggers) the table `freqs[0..=257]`
is non-decreasing and `freqs[257] ≤ MAX_FREQ`. -/
theorem update_preserves_table_invariant (s : State) (hs : Reachable s) (sym : ℕ)
    (hsym : sym ≤ EOFSYM) :
    (∀ i, i < SYM_CNT → (State.update sym s).freqs i ≤ (State.update sym s).freqs (i + 1)) ∧
      (State.update sym s).freqs SYM_CNT ≤ MAX_FREQ := by
  have hinv := update_inv sym s (reachable_inv hs)
  refine ⟨fun i hi => ?_, le_of_lt hinv.2.2⟩
  have := hinv.2.1 i hi
  omega

/-- Witness for C3 at the fresh model and symbol 0. -/
theorem update_preserves_table_invariant_witness :
    Reachable State.new ∧ (0 : ℕ) ≤ EOFSYM ∧
      ((∀ i, i < SYM_CNT →
          (State.update 0 State.new).freqs i ≤ (State.update 0 State.new).freqs (i + 1)) ∧
        (State.update 0 State.new).freqs SYM_CNT ≤ MAX_FREQ) :=
  ⟨Reachable.base, Nat.zero_le _,
    update_preserves_table_invariant State.new Reachable.base 0 (Nat.zero_le _)⟩

/-- C4: for every reachable model state, after `State::downscale` every
symbol whose individual count was positive before keeps an individual
count of at least 1, and the table remains non-decreasing. -/
theorem downscale_keeps_positive_counts (s : State) (hs : Reachable s) :
    (∀ sym, sym ≤ EOFSYM → 0 < s.freqs (sym + 1) - s.freqs sym →
        1 ≤ (State.downscale s).freqs (sym + 1) - (State.downscale s).freqs sym) ∧
      ∀ i, i < SYM_CNT → (State.downscale s).freqs i ≤ (State.downscale s).freqs (i + 1) := by
  obtain ⟨hz, hd, htot⟩ := reachable_inv hs
  have hinv := downscale_inv s hz hd (le_of_lt htot)
  constructor
  · intro sym hsym _
    have hE : (EOFSYM : ℕ) = 256 := rfl
    have hS : (SYM_CNT : ℕ) = 257 := rfl
    have hdi := hinv.2.1 sym (by omega)
    omega
  · intro i hi
    have := hinv.2.1 i hi
    omega

/-- Witness for C4 at the fresh model. -/
theorem downscale_keeps_positive_counts_witness :
    Reachable State.new ∧
      ((∀ sym, sym ≤ EOFSYM → 0 < State.new.freqs (sym + 1) - State.new.freqs sym →
          1 ≤ (State.downscale State.new).freqs (sym + 1) -
            (State.downscale State.new).freqs sym) ∧
        ∀ i, i < SYM_CNT →
          (State.downscale State.new).freqs i ≤ (State.downscale State.new).freqs (i + 1)) :=
  ⟨Reachable.base, downscale_keeps_positive_counts State.new Reachable.base⟩

/-- C7: on every reachable model state, for every `scaled_value` below
`freqs[257]`, `get_symbol_and_update` returns the smallest symbol with
`scaled_value < freqs[sym+1]`, together with the probability triple
`(freqs[sym], freqs[sym+1], freqs[257])` read before any mutation, and
mutates the model exactly as the encoder path `get_prob_and_update(sym)`
does. -/
theorem get_symbol_and_update_spec (s : State) (hs : Reachable s) (scaled : ℕ)
    (h : scaled < s.freqs SYM_CNT) :
    ∃ sym, scaled < s.freqs (sym + 1) ∧ (∀ j, j < sym → s.freqs (j + 1) ≤ scaled) ∧
      State.getSymbolAndUpdate scaled s =
        some ((⟨s.freqs sym, s.freqs (sym + 1), s.freqs SYM_CNT⟩, sym),
          (State.getProbAndUpdate sym s).2) := by
  obtain ⟨sym, hsym, hEq, hlt, hge⟩ := getSymbolAndUpdate_some s scaled h
  exact ⟨sym, hlt, hge, hEq⟩

/-- Witness for C7 at the fresh model and `scaled_value = 0`. -/
theorem get_symbol_and_update_spec_witness :
    Reachable State.new ∧ (0 : ℕ) < State.new.freqs SYM_CNT ∧
      (∃ sym, (0 : ℕ) < State.new.freqs (sym + 1) ∧
        (∀ j, j < sym → State.new.freqs (j + 1) ≤ 0) ∧
        State.getSymbolAndUpdate 0 State.new =
          some ((⟨State.new.freqs sym, State.new.freqs (sym + 1),
            State.new.freqs SYM_CNT⟩, sym), (State.getProbAndUpdate sym State.new).2)) :=
  ⟨Reachable.base, by decide,
    get_symbol_and_update_spec State.new Reachable.base 0 (by decide)⟩

/-! ## Concrete evaluation theorems -/

set_option maxRecDepth 40000

/-- C2: with the fixed constants `W = 32`, `MAX_FREQ = 0x3fff` and uniform
initial counts of 1 per symbol including EOF, compressing the empty input
yields exactly the bytes `[255, 64]` and compressing `b"A"` yields exactly
`[65, 189, 128]`. -/
theorem compress_concrete_fixtures :
    compress vecSink [] = Res.ok [255, 64] ∧
      compress vecSink [65] = Res.ok [65, 189, 128] := by
  decide

/-- C8 counterexample: `compress(b"") = [255, 64]`, and decompressing the
strict prefix `[255]`, which ends before the true end of the stream,
returns `Ok` with the wrong three-byte output `[255, 255, 255]` instead of
the unexpected-end-of-stream error. -/
theorem truncated_stream_decodes_ok :
    compress vecSink [] = Res.ok ([255] ++ [64]) ∧
      decompress 32 [255] = Res.ok [255, 255, 255] := by
  decide

/-- C8 amended: truncation is reported only when the padding budget runs
out before EOF decodes; truncating `compress(b"") = [255, 64]` to the
empty buffer does raise the unexpected-end-of-stream error. -/
theorem truncated_to_empty_raises_eof :
    compress vecSink [] = Res.ok ([] ++ [255, 64]) ∧ decompress 32 [] = Res.eofErr := by
  decide

/-- C9: a sink write error during encoding is propagated as an `Err`
result, but an error raised by the sink while the encoder flushes the bit
writer at the end of `Encoder::compress` hits `outp.flush().unwrap()` and
panics instead of being returned. -/
theorem flush_error_panics_encoder :
    compress ⟨fun _ => true, false⟩ [] = Res.crashed ∧
      compress ⟨fun _ => false, true⟩ [] = Res.ioErr := by
  decide

end Campross
